import Mathlib

/-!
# Verification of the planets-service GraphQL layer

Shallow embedding of `src/planets-service/src/graphql.rs` together with the
numeric behaviour of its dependencies (`bigdecimal` 0.1, `num-bigint`,
`i128` scientific-notation formatting from the Rust standard library).

Conventions of the embedding:
* Rust strings are `List Char` (all strings relevant to the claims are
  ASCII, where byte indices and character indices coincide).
* Machine integers are `Int`/`Nat` with explicit range checks where the
  source checks or can overflow (`i32`, `i64`, `i128` parsing bounds).
  A `usize`-to-`i64` cast of a string length is modelled as exact, since a
  Rust string never exceeds `isize::MAX` bytes.
* A Rust panic (`expect`, `unimplemented!`) is modelled as `Except.error`
  of a `RustPanic` value naming the panic site.
* `async` resolution is irrelevant to the claims settled here; the
  batch-loader body is modelled as the sequential fold it performs over
  the key slice, instrumented with a count of gateway calls.
-/

namespace Planets

/-! ## Decimal digit strings -/

/-- Numeric value of an ASCII digit character (the Rust parsers work on
`c as u8 - b'0'`). -/
def charVal (c : Char) : Nat := c.toNat - 48

/-- The ASCII digit character for a value `d < 10`. -/
def digitCh (d : Nat) : Char := Char.ofNat (48 + d)

/-- ASCII digit test, `48 ≤ c ≤ 57`. -/
def isDigitCh (c : Char) : Bool := decide (48 ≤ c.toNat ∧ c.toNat ≤ 57)

/-- Value of a big-endian decimal digit string, as folded up by the
string-to-integer conversions in `num-bigint` and `core`. -/
def digitsToNat (s : List Char) : Nat :=
  s.foldl (fun a c => 10 * a + charVal c) 0

/-- Decimal rendering of a natural number (`to_str_radix(10)` in
`num-bigint`, and the digit buffer of `core::fmt` integer formatting). -/
def natToStr (n : Nat) : List Char :=
  if n = 0 then ['0'] else ((Nat.digits 10 n).map digitCh).reverse

/-- Decimal rendering of a signed integer. -/
def intToStr (i : Int) : List Char :=
  (if i < 0 then ['-'] else []) ++ natToStr i.natAbs

/-! ## BigDecimal (bigdecimal 0.1): representation, arithmetic, Display,
FromStr -/

/-- `bigdecimal::BigDecimal`: an unscaled `BigInt` plus an `i64` scale;
the value denoted is `intVal * 10 ^ (-scale)`. -/
structure BigDecimal where
  intVal : Int
  scale : Int
deriving DecidableEq, Repr

def i64Min : Int := -(2 ^ 63)

def i64Max : Int := 2 ^ 63 - 1

def i32Min : Int := -(2 ^ 31)

def i32Max : Int := 2 ^ 31 - 1

def i128Min : Int := -(2 ^ 127)

def i128Max : Int := 2 ^ 127 - 1

/-- `bigdecimal` multiplication: unscaled values multiply, scales add. -/
def BigDecimal.mul (a b : BigDecimal) : BigDecimal :=
  ⟨a.intVal * b.intVal, a.scale + b.scale⟩

/-- `BigDecimal::one()`. -/
def BigDecimal.one : BigDecimal := ⟨1, 0⟩

/-- `num::pow` on `BigDecimal` (repeated multiplication; `bigdecimal`
multiplication is associative on both components, so the
squaring order used by `num::pow` gives the same result). -/
def bdPow (b : BigDecimal) : Nat → BigDecimal
  | 0 => BigDecimal.one
  | n + 1 => b.mul (bdPow b n)

/-- `BigDecimal::with_scale` (bigdecimal 0.1): rescale, truncating toward
zero on scale reduction (`num-bigint` division truncates). -/
def BigDecimal.withScale (d : BigDecimal) (newScale : Int) : BigDecimal :=
  if d.intVal = 0 then ⟨0, newScale⟩
  else if newScale > d.scale then
    ⟨d.intVal * 10 ^ (newScale - d.scale).toNat, newScale⟩
  else if newScale < d.scale then
    ⟨Int.tdiv d.intVal (10 ^ (d.scale - newScale).toNat), newScale⟩
  else d

/-- `ToBigInt for BigDecimal` (bigdecimal 0.1): always succeeds,
truncating the fractional part. -/
def bigDecimalToBigInt (d : BigDecimal) : Int := (d.withScale 0).intVal

/-- `PartialEq for BigDecimal`: align the two scales and compare the
unscaled integers, i.e. equality of denoted values. -/
def BigDecimal.eqv (a b : BigDecimal) : Prop :=
  a.intVal * 10 ^ (max a.scale b.scale - a.scale).toNat
    = b.intVal * 10 ^ (max a.scale b.scale - b.scale).toNat

instance (a b : BigDecimal) : Decidable (a.eqv b) := by
  unfold BigDecimal.eqv; infer_instance

/-- `Display for BigDecimal` (bigdecimal 0.1): plain decimal notation,
splitting the digit string around the decimal point; no exponent. -/
def BigDecimal.display (d : BigDecimal) : List Char :=
  let absInt := natToStr d.intVal.natAbs
  let len : Int := (absInt.length : Int)
  let pair : List Char × List Char :=
    if d.scale ≥ len then
      (['0'], List.replicate (d.scale.toNat - absInt.length) '0' ++ absInt)
    else
      let location := len - d.scale
      if location > len then
        (absInt ++ List.replicate (location - len).toNat '0', [])
      else
        (absInt.take location.toNat, absInt.drop location.toNat)
  let complete := if pair.2 = [] then pair.1 else pair.1 ++ '.' :: pair.2
  if d.intVal < 0 then '-' :: complete else complete

/-- Split a string at the first `e`/`E`, as `s.find(&['e', 'E'])` does in
`BigDecimal::from_str_radix`. -/
def splitOnExp : List Char → List Char × Option (List Char)
  | [] => ([], none)
  | c :: cs =>
    if c = 'e' ∨ c = 'E' then ([], some cs)
    else
      let p := splitOnExp cs
      (c :: p.1, p.2)

/-- Split a string at the first `.`, as `base_part.find('.')` does. -/
def splitOnDot : List Char → List Char × Option (List Char)
  | [] => ([], none)
  | c :: cs =>
    if c = '.' then ([], some cs)
    else
      let p := splitOnDot cs
      (c :: p.1, p.2)

/-- Drop one leading `+` (the special case applied to the exponent field
before `i64::from_str`). -/
def stripPlus : List Char → List Char
  | [] => []
  | c :: r => if c = '+' then r else c :: r

/-- Unsigned decimal digit parse: nonempty, all digits. -/
def parseNatDigits (s : List Char) : Option Nat :=
  if s ≠ [] ∧ ∀ c ∈ s, isDigitCh c = true then some (digitsToNat s)
  else none

/-- `BigInt::from_str` (num-bigint, radix 10): one optional sign, then at
least one digit; arbitrary precision. -/
def parseBigIntDigits : List Char → Option Int
  | [] => none
  | c :: r =>
    if c = '+' then (parseNatDigits r).map Int.ofNat
    else if c = '-' then (parseNatDigits r).map (fun n => -(Int.ofNat n))
    else (parseNatDigits (c :: r)).map Int.ofNat

/-- `i64::from_str`: same grammar, with the `i64` range check. -/
def parseI64 (s : List Char) : Option Int :=
  (parseBigIntDigits s).bind fun v =>
    if i64Min ≤ v ∧ v ≤ i64Max then some v else none

/-- `i32::from_str`: same grammar, with the `i32` range check. -/
def parseI32 (s : List Char) : Option Int :=
  (parseBigIntDigits s).bind fun v =>
    if i32Min ≤ v ∧ v ≤ i32Max then some v else none

/-- Two's-complement wrap into the `i64` range: the release-build
behaviour of a plain `i64` subtraction. The identity on `[i64Min, i64Max]`
(`wrapI64_eq_self`). -/
def wrapI64 (x : Int) : Int := (x + 2 ^ 63) % 2 ^ 64 - 2 ^ 63

/-- Processing of the base (pre-exponent) part of
`BigDecimal::from_str_radix` (bigdecimal 0.1): reject an empty base,
remove the first `.` recording the fractional offset, parse the remaining
characters as a signed `BigInt`, and set `scale = offset - exponent` by a
plain `i64` subtraction — unchecked in this crate version, so on the
overflowing fringe (an exponent below `offset - i64::MAX`) a release
build wraps, which `wrapI64` models (a debug build would panic there
instead). -/
def bigDecimalFromStrBase (base : List Char) (expVal : Int) : Option BigDecimal :=
  if base = [] then none
  else
    let ds := splitOnDot base
    let digits := match ds.2 with
      | none => base
      | some trail => ds.1 ++ trail
    let offset : Int := match ds.2 with
      | none => 0
      | some trail => (trail.length : Int)
    match parseBigIntDigits digits with
    | none => none
    | some intVal => some ⟨intVal, wrapI64 (offset - expVal)⟩

/-- `BigDecimal::from_str` (bigdecimal 0.1 `from_str_radix`, radix 10):
split off an optional `e`/`E` exponent (parsed as `i64` after stripping
one leading `+`; the exponent defaults to 0 when no marker occurs), then
process the base part. -/
def bigDecimalFromStr (s : List Char) : Option BigDecimal :=
  let es := splitOnExp s
  match es.2 with
  | none => bigDecimalFromStrBase es.1 0
  | some ex =>
    match parseI64 (stripPlus ex) with
    | none => none
    | some expVal => bigDecimalFromStrBase es.1 expVal

/-! ## GraphQL values, scalars and panics -/

/-- `async_graphql::Value` (v1). The payloads of the non-string variants
are irrelevant to the embedded functions (which match only on the
constructor), so the float variant carries no payload. -/
inductive Value where
  | null
  | varRef (name : List Char)
  | int (i : Int)
  | float
  | str (s : List Char)
  | boolean (b : Bool)
  | enumName (n : List Char)
  | list (xs : List Value)
  | object (fields : List (List Char × Value))
  | upload (s : List Char)

/-- `async_graphql::InputValueError` (v1): the `ExpectedType(value)`
variant, and `Custom` for errors converted via `?` (such as a
`BigDecimal` parse error). -/
inductive InputValueError where
  | expectedType (v : Value)
  | custom

/-- The panic sites of the embedded code, used to model `expect` and
`unimplemented!`. -/
inductive RustPanic where
  | unimplemented
  | bigIntToI128
  | idParse
  | dbConnection
  | detailsFetch
  | planetTypeParse
deriving DecidableEq

/-- `CustomBigDecimal` newtype over `BigDecimal`. -/
structure CustomBigDecimal where
  val : BigDecimal
deriving DecidableEq

/-- `ScalarType::parse` for `CustomBigDecimal`: only `Value::String` is
accepted; the string goes through `BigDecimal::from_str`, whose error is
converted by `?`; every other value is `ExpectedType`. -/
def CustomBigDecimal.parse (v : Value) : Except InputValueError CustomBigDecimal :=
  match v with
  | .str s =>
    match bigDecimalFromStr s with
    | some d => .ok ⟨d⟩
    | none => .error .custom
  | _ => .error (.expectedType v)

/-- `ScalarType::to_value` for `CustomBigDecimal`: the `Display` string. -/
def CustomBigDecimal.to_value (c : CustomBigDecimal) : Value :=
  .str c.val.display

/-- `CustomBigInt` newtype over `BigInt`. -/
structure CustomBigInt where
  val : Int
deriving DecidableEq

/-- `ScalarType::parse` for `CustomBigInt` is `unimplemented!()`: it
panics on every input. -/
def CustomBigInt.parse (_v : Value) : Except RustPanic CustomBigInt :=
  .error .unimplemented

/-- Strip trailing decimal zeros, as the `core::fmt` scientific-notation
formatter does (`while n % 10 == 0 && n >= 10`). Returns the stripped
mantissa and the number of zeros removed. -/
def stripTrailingZeros (n : Nat) : Nat × Nat :=
  if h : 10 ≤ n ∧ n % 10 = 0 then
    let p := stripTrailingZeros (n / 10)
    (p.1, p.2 + 1)
  else (n, 0)
termination_by n
decreasing_by exact Nat.div_lt_self (by omega) (by omega)

/-- `LowerExp` formatting of an `i128` (`format!("{:e}", v)`): strip
trailing zeros, print the first significant digit, a `.` and the rest if
any, then `e` and the (always non-negative) decimal exponent. -/
def i128LowerExp (v : Int) : List Char :=
  let p := stripTrailingZeros v.natAbs
  let ds := natToStr p.1
  let mant : List Char :=
    match ds with
    | [] => []
    | d :: rest => d :: (if rest = [] then [] else '.' :: rest)
  let expDigits := natToStr (p.2 + (ds.length - 1))
  (if v < 0 then ['-'] else []) ++ mant ++ 'e' :: expDigits

/-- `ScalarType::to_value` for `CustomBigInt`: `LowerExp` via
`to_i128().expect(..)` — a panic when the value is outside the `i128`
range. -/
def CustomBigInt.to_value (c : CustomBigInt) : Except RustPanic Value :=
  if i128Min ≤ c.val ∧ c.val ≤ i128Max then .ok (.str (i128LowerExp c.val))
  else .error .bigIntToI128

/-! ## Entities, planets, details -/

/-- Modelled from the spec: the persisted detail row (`DetailsEntity` of
the persistence layer, which is outside `src/`); §6 gives
`getDetailsById(id) -> DetailRow|NotFound` and §3 the row fields. The
field types are those forced by the uses in `graphql.rs`. -/
structure DetailsEntity where
  planet_id : Int
  mean_radius : BigDecimal
  mass : BigDecimal
  population : Option BigDecimal
deriving DecidableEq

/-- Modelled from the spec: the persisted planet row (`PlanetEntity`,
outside `src/`); fields as consumed by `From<&PlanetEntity> for Planet`. -/
structure PlanetEntity where
  id : Int
  name : List Char
  planet_type : List Char
deriving DecidableEq

/-- Modelled from the spec: the persistence gateway reachable through a
`PgPool` connection. `connAvailable` models whether `pool.get()` /
`get_conn_from_ctx` succeeds; the two lookup functions model
`repository::get` and `repository::get_details`, whose contract (§6) is
`getById(id) -> Row|NotFound` and `getDetailsById(id) -> DetailRow|NotFound`
(`none` is the NotFound outcome). -/
structure PgPool where
  connAvailable : Bool
  planets : Int → Option PlanetEntity
  details : Int → Option DetailsEntity

inductive PlanetType where
  | terrestrialPlanet
  | gasGiant
  | iceGiant
  | dwarfPlanet
deriving DecidableEq

/-- `strum::EnumString`: parse the exact variant name. -/
def PlanetType.fromStr (s : List Char) : Option PlanetType :=
  if s = "TerrestrialPlanet".data then some .terrestrialPlanet
  else if s = "GasGiant".data then some .gasGiant
  else if s = "IceGiant".data then some .iceGiant
  else if s = "DwarfPlanet".data then some .dwarfPlanet
  else none

/-- `async_graphql::ID` is a string. -/
abbrev ID := List Char

structure Planet where
  id : ID
  name : List Char
  planet_type : PlanetType
deriving DecidableEq

/-- `From<&PlanetEntity> for Planet`: the stored type string is parsed
with `PlanetType::from_str(..).expect(..)` — a panic when malformed. -/
def Planet.fromEntity (e : PlanetEntity) : Except RustPanic Planet :=
  match PlanetType.fromStr e.planet_type with
  | some t => .ok ⟨intToStr e.id, e.name, t⟩
  | none => .error .planetTypeParse

structure InhabitedPlanetDetails where
  mean_radius : CustomBigDecimal
  mass : CustomBigInt
  population : CustomBigDecimal
deriving DecidableEq

structure UninhabitedPlanetDetails where
  mean_radius : CustomBigDecimal
  mass : CustomBigInt
deriving DecidableEq

inductive Details where
  | inhabitedPlanetDetails (d : InhabitedPlanetDetails)
  | uninhabitedPlanetDetails (d : UninhabitedPlanetDetails)
deriving DecidableEq

instance : Inhabited Details :=
  ⟨.uninhabitedPlanetDetails ⟨⟨⟨0, 0⟩⟩, ⟨0⟩⟩⟩

/-- `From<&DetailsEntity> for Details`: the `population.is_some()` test
selects the variant; mass goes through `to_bigint()` (total in
bigdecimal 0.1). -/
def Details.fromEntity (e : DetailsEntity) : Details :=
  match e.population with
  | some p =>
    .inhabitedPlanetDetails
      ⟨⟨e.mean_radius⟩, ⟨bigDecimalToBigInt e.mass⟩, ⟨p⟩⟩
  | none =>
    .uninhabitedPlanetDetails
      ⟨⟨e.mean_radius⟩, ⟨bigDecimalToBigInt e.mass⟩⟩

def Details.isInhabited : Details → Bool
  | .inhabitedPlanetDetails _ => true
  | .uninhabitedPlanetDetails _ => false

def Details.populationOf : Details → Option CustomBigDecimal
  | .inhabitedPlanetDetails d => some d.population
  | .uninhabitedPlanetDetails _ => none

/-! ## Resolver and mutation helpers -/

/-- `find_planet_by_id_internal`: parse the wire id as `i32`
(`expect` panic when malformed), then `repository::get(..).ok()`
(NotFound becomes `None`), then `Planet::from`. -/
def find_planet_by_id_internal (pool : PgPool) (id : ID) :
    Except RustPanic (Option Planet) :=
  match parseI32 id with
  | none => .error .idParse
  | some pid =>
    if pool.connAvailable = true then
      match pool.planets pid with
      | none => .ok none
      | some e => (Planet.fromEntity e).map some
    else .error .dbConnection

/-- `get_new_planet_mass`: `BigDecimal::from(mantissa) * 10 ^ exponent`.
In bigdecimal 0.1 `BigDecimal::from(f32)` parses the shortest decimal
`Display` rendering of the float, so the mantissa argument here is that
decimal value; the exponent is the `u8` cast to `usize`. -/
def get_new_planet_mass (mantissa : BigDecimal) (exponent : Nat) : BigDecimal :=
  mantissa.mul (bdPow ⟨10, 0⟩ exponent)

/-! ## The batched detail loader -/

structure DetailsBatchLoader where
  pool : PgPool

/-- The loop body of `BatchFn::load`, one iteration per key of the batch
slice: check out a connection (`expect` panic when unavailable), parse the
id (`expect` panic when malformed), call the gateway
(`repository::get_details`, `expect` panic when the row is missing).
The accumulator keeps the produced `(id, Details)` pairs in iteration
order (the source collects them into a `HashMap`); the `Nat` counts the
gateway calls that returned a row. -/
def DetailsBatchLoader.loadGo (pool : PgPool) :
    List ID → List (ID × Details) → Nat →
    Except RustPanic (List (ID × Details) × Nat)
  | [], acc, calls => .ok (acc, calls)
  | k :: ks, acc, calls =>
    if pool.connAvailable = true then
      match parseI32 k with
      | none => .error .idParse
      | some kid =>
        match pool.details kid with
        | none => .error .detailsFetch
        | some e =>
          DetailsBatchLoader.loadGo pool ks
            (acc ++ [(k, Details.fromEntity e)]) (calls + 1)
    else .error .dbConnection

/-- `BatchFn::load` for `DetailsBatchLoader`. -/
def DetailsBatchLoader.load (l : DetailsBatchLoader) (keys : List ID) :
    Except RustPanic (List (ID × Details) × Nat) :=
  DetailsBatchLoader.loadGo l.pool keys [] 0

/-! ## Concrete sample data used by witnesses and counterexamples -/

def entMercury : DetailsEntity :=
  ⟨1, ⟨24397, 1⟩, ⟨33011 * 10 ^ 19, 0⟩, none⟩

def entEarth : DetailsEntity :=
  ⟨2, ⟨63710, 1⟩, ⟨5972 * 10 ^ 21, 0⟩, some ⟨7613, 3⟩⟩

def entEarthPlanet : PlanetEntity :=
  ⟨3, "Earth".data, "TerrestrialPlanet".data⟩

def examplePool : PgPool where
  connAvailable := true
  planets := fun pid => if pid = 3 then some entEarthPlanet else none
  details := fun kid =>
    if kid = 1 then some entMercury
    else if kid = 2 then some entEarth
    else none

/-! ## Specification predicates for the codec claims -/

/-- Lower-case scientific notation shape: optional minus, one digit,
optional point-separated nonempty fraction, `e`, one or more exponent
digits. -/
def IsLowerSci (s : List Char) : Prop :=
  ∃ sgn d frac expDs,
    s = sgn ++ d :: (frac ++ 'e' :: expDs) ∧
    (sgn = [] ∨ sgn = ['-']) ∧
    isDigitCh d = true ∧
    expDs ≠ [] ∧ (∀ c ∈ expDs, isDigitCh c = true) ∧
    (frac = [] ∨ ∃ fds, frac = '.' :: fds ∧ fds ≠ [] ∧ ∀ c ∈ fds, isDigitCh c = true)

/-- Canonical decimal wire strings (§6, "canonical base-10 strings" such
as `6371.0`): optional minus, an integer part without redundant leading
zeros, an optional dot-then-digits fractional part, no negative zero.
The fraction length bound records that a Rust string never exceeds
`isize::MAX` bytes. -/
def CanonicalDec (s : List Char) : Prop :=
  ∃ (neg : Bool) (ip fds : List Char),
    s = (if neg then ['-'] else []) ++ ip ++ (if fds = [] then [] else '.' :: fds) ∧
    (ip = ['0'] ∨ (ip ≠ [] ∧ (∀ c ∈ ip, isDigitCh c = true) ∧ ip.head? ≠ some '0')) ∧
    (∀ c ∈ fds, isDigitCh c = true) ∧
    (fds.length : Int) ≤ i64Max ∧
    (neg = true → digitsToNat (ip ++ fds) ≠ 0)

/-- No `e`/`E` exponent marker occurs. -/
def NoExpCh (s : List Char) : Prop := ∀ c ∈ s, c ≠ 'e' ∧ c ≠ 'E'

instance (s : List Char) : Decidable (NoExpCh s) := by
  unfold NoExpCh
  infer_instance

theorem charVal_digitCh : ∀ d < 10, charVal (digitCh d) = d := by decide

theorem isDigitCh_digitCh : ∀ d < 10, isDigitCh (digitCh d) = true := by decide

theorem digitCh_inv (c : Char) (h : isDigitCh c = true) : digitCh (charVal c) = c := by
  simp only [isDigitCh, decide_eq_true_eq] at h
  have hv : 48 + charVal c = c.toNat := by simp only [charVal]; omega
  rw [digitCh, hv, Char.ofNat_toNat]

theorem charVal_lt_ten (c : Char) (h : isDigitCh c = true) : charVal c < 10 := by
  simp only [isDigitCh, decide_eq_true_eq] at h
  simp only [charVal]
  omega

theorem digitCh_ne_special : ∀ d < 10,
    digitCh d ≠ 'e' ∧ digitCh d ≠ 'E' ∧ digitCh d ≠ '.' ∧
    digitCh d ≠ '-' ∧ digitCh d ≠ '+' := by decide

theorem isDigitCh_ne_special (c : Char) (h : isDigitCh c = true) :
    c ≠ 'e' ∧ c ≠ 'E' ∧ c ≠ '.' ∧ c ≠ '-' ∧ c ≠ '+' := by
  rw [← digitCh_inv c h]
  exact digitCh_ne_special _ (charVal_lt_ten c h)

theorem charVal_ne_zero (c : Char) (h : isDigitCh c = true) (hne : c ≠ '0') :
    charVal c ≠ 0 := by
  intro h0
  apply hne
  rw [← digitCh_inv c h, h0]
  rfl

theorem foldl_digits (s : List Char) (a : Nat) :
    s.foldl (fun x c => 10 * x + charVal c) a = a * 10 ^ s.length + digitsToNat s := by
  induction s generalizing a with
  | nil => simp [digitsToNat]
  | cons c tl ih =>
    have h2 : digitsToNat (c :: tl) = tl.foldl (fun x c => 10 * x + charVal c) (charVal c) := by
      simp [digitsToNat]
    rw [List.foldl_cons, ih, h2, ih, List.length_cons]
    ring

theorem digitsToNat_cons (c : Char) (tl : List Char) :
    digitsToNat (c :: tl) = charVal c * 10 ^ tl.length + digitsToNat tl := by
  have h2 : digitsToNat (c :: tl) = tl.foldl (fun x c => 10 * x + charVal c) (charVal c) := by
    simp [digitsToNat]
  rw [h2, foldl_digits]

theorem digitsToNat_append (s t : List Char) :
    digitsToNat (s ++ t) = digitsToNat s * 10 ^ t.length + digitsToNat t := by
  have h2 : digitsToNat (s ++ t) = t.foldl (fun x c => 10 * x + charVal c) (digitsToNat s) := by
    simp [digitsToNat, List.foldl_append]
  rw [h2, foldl_digits]

theorem digitsToNat_replicate_zero (k : Nat) :
    digitsToNat (List.replicate k '0') = 0 := by
  induction k with
  | zero => rfl
  | succ n ih =>
    rw [List.replicate_succ, digitsToNat_cons, ih]
    have h0 : charVal '0' = 0 := by decide
    simp [h0]

theorem digitsToNat_lt (s : List Char) (h : ∀ c ∈ s, isDigitCh c = true) :
    digitsToNat s < 10 ^ s.length := by
  induction s with
  | nil => simp [digitsToNat]
  | cons c tl ih =>
    rw [digitsToNat_cons]
    have hc := charVal_lt_ten c (h c (by simp))
    have htl := ih (fun x hx => h x (by simp [hx]))
    calc charVal c * 10 ^ tl.length + digitsToNat tl
        < charVal c * 10 ^ tl.length + 10 ^ tl.length := by omega
      _ = (charVal c + 1) * 10 ^ tl.length := by ring
      _ ≤ 10 * 10 ^ tl.length := Nat.mul_le_mul_right _ (by omega)
      _ = 10 ^ (c :: tl).length := by rw [List.length_cons, pow_succ]; ring

theorem digitsToNat_head_lower (c : Char) (tl : List Char)
    (hc : isDigitCh c = true) (hne : c ≠ '0') :
    10 ^ tl.length ≤ digitsToNat (c :: tl) := by
  rw [digitsToNat_cons]
  have h1 : 1 ≤ charVal c := Nat.one_le_iff_ne_zero.mpr (charVal_ne_zero c hc hne)
  calc 10 ^ tl.length = 1 * 10 ^ tl.length := by ring
    _ ≤ charVal c * 10 ^ tl.length := Nat.mul_le_mul_right _ h1
    _ ≤ charVal c * 10 ^ tl.length + digitsToNat tl := Nat.le_add_right _ _

theorem digitsToNat_eq_ofDigits (ds : List Char) :
    digitsToNat ds = Nat.ofDigits 10 ((ds.map charVal).reverse) := by
  induction ds with
  | nil => simp [digitsToNat]
  | cons c tl ih =>
    rw [digitsToNat_cons, ih]
    simp only [List.map_cons, List.reverse_cons]
    rw [Nat.ofDigits_append]
    simp [Nat.ofDigits_singleton]
    ring

theorem natToStr_ne_nil (n : Nat) : natToStr n ≠ [] := by
  unfold natToStr
  split
  · simp
  · next h =>
    simp only [ne_eq, List.reverse_eq_nil_iff, List.map_eq_nil_iff]
    exact Nat.digits_ne_nil_iff_ne_zero.mpr h

theorem natToStr_all_digits (n : Nat) : ∀ c ∈ natToStr n, isDigitCh c = true := by
  intro c hc
  unfold natToStr at hc
  split at hc
  · simp only [List.mem_singleton] at hc
    subst hc
    decide
  · simp only [List.mem_reverse, List.mem_map] at hc
    obtain ⟨d, hd, rfl⟩ := hc
    exact isDigitCh_digitCh d (Nat.digits_lt_base (by norm_num) hd)

theorem digitsToNat_natToStr (n : Nat) : digitsToNat (natToStr n) = n := by
  unfold natToStr
  split
  · next h => subst h; decide
  · next h =>
    rw [digitsToNat_eq_ofDigits, ← List.map_reverse, List.reverse_reverse, List.map_map]
    have h1 : (Nat.digits 10 n).map (charVal ∘ digitCh) = (Nat.digits 10 n).map id :=
      List.map_congr_left
        (fun d hd => charVal_digitCh d (Nat.digits_lt_base (by norm_num) hd))
    rw [h1, List.map_id, Nat.ofDigits_digits]

theorem natToStr_roundtrip (ds : List Char) (hne : ds ≠ [])
    (hd : ∀ c ∈ ds, isDigitCh c = true) (hh : ds.head? ≠ some '0') :
    natToStr (digitsToNat ds) = ds := by
  have hdig : digitsToNat ds = Nat.ofDigits 10 ((ds.map charVal).reverse) :=
    digitsToNat_eq_ofDigits ds
  have hlt : ∀ l ∈ (ds.map charVal).reverse, l < 10 := by
    intro l hl
    simp only [List.mem_reverse, List.mem_map] at hl
    obtain ⟨c, hc, rfl⟩ := hl
    exact charVal_lt_ten c (hd c hc)
  have hLne : (ds.map charVal).reverse ≠ [] := by
    simp only [ne_eq, List.reverse_eq_nil_iff, List.map_eq_nil_iff]
    exact hne
  obtain ⟨c0, tl0, rfl⟩ := List.exists_cons_of_ne_nil hne
  have hc0 : c0 ≠ '0' := by
    intro h0
    exact hh (by simp [h0])
  have hlast : ∀ (h : ((c0 :: tl0).map charVal).reverse ≠ []),
      (((c0 :: tl0).map charVal).reverse).getLast h ≠ 0 := by
    intro h
    have h1 : (((c0 :: tl0).map charVal).reverse).getLast? = some (charVal c0) := by
      rw [List.getLast?_reverse]
      simp
    rw [List.getLast?_eq_getLast _ h] at h1
    have h2 := Option.some_injective _ h1
    rw [h2]
    exact charVal_ne_zero c0 (hd c0 (by simp)) hc0
  have hdigits :
      Nat.digits 10 (Nat.ofDigits 10 (((c0 :: tl0).map charVal).reverse))
        = ((c0 :: tl0).map charVal).reverse :=
    Nat.digits_ofDigits 10 (by norm_num) _ hlt hlast
  have hne0 : Nat.ofDigits 10 (((c0 :: tl0).map charVal).reverse) ≠ 0 := by
    intro h0
    rw [h0, Nat.digits_zero] at hdigits
    exact hLne hdigits.symm
  rw [hdig, natToStr, if_neg hne0, hdigits, ← List.map_reverse,
    List.reverse_reverse, List.map_map]
  have h1 : (c0 :: tl0).map (digitCh ∘ charVal) = (c0 :: tl0).map id :=
    List.map_congr_left (fun c hc => digitCh_inv c (hd c hc))
  rw [h1, List.map_id]

theorem natToStr_length_le (n k : Nat) (hk : 1 ≤ k) (h : n < 10 ^ k) :
    (natToStr n).length ≤ k := by
  unfold natToStr
  split
  · simpa using hk
  · next hn =>
    simp only [List.length_reverse, List.length_map]
    rw [Nat.digits_len 10 n (by norm_num) hn]
    have := Nat.log_lt_of_lt_pow hn h
    omega

theorem pad_natToStr : ∀ (ds : List Char), ds ≠ [] →
    (∀ c ∈ ds, isDigitCh c = true) →
    List.replicate (ds.length - (natToStr (digitsToNat ds)).length) '0' ++
      natToStr (digitsToNat ds) = ds := by
  intro ds
  induction ds with
  | nil => intro h; exact absurd rfl h
  | cons c tl ih =>
    intro _ hd
    by_cases hc0 : c = '0'
    · subst hc0
      cases tl with
      | nil => decide
      | cons c2 tl2 =>
        have htl_ne : (c2 :: tl2 : List Char) ≠ [] := by simp
        have hd_tl : ∀ x ∈ c2 :: tl2, isDigitCh x = true :=
          fun x hx => hd x (by simp [hx])
        have heq : digitsToNat ('0' :: c2 :: tl2) = digitsToNat (c2 :: tl2) := by
          rw [digitsToNat_cons]
          have h0 : charVal '0' = 0 := by decide
          simp [h0]
        rw [heq]
        have hlen : (natToStr (digitsToNat (c2 :: tl2))).length ≤ (c2 :: tl2).length :=
          natToStr_length_le _ _ (by simp) (digitsToNat_lt _ hd_tl)
        have harith : ('0' :: c2 :: tl2).length - (natToStr (digitsToNat (c2 :: tl2))).length
            = ((c2 :: tl2).length - (natToStr (digitsToNat (c2 :: tl2))).length) + 1 := by
          simp only [List.length_cons] at hlen ⊢
          omega
        rw [harith, List.replicate_succ, List.cons_append, ih htl_ne hd_tl]
    · have hrt := natToStr_roundtrip (c :: tl) (by simp) hd
        (by simpa using hc0)
      rw [hrt]
      simp

theorem splitOnExp_no_e (s : List Char) (h : NoExpCh s) : splitOnExp s = (s, none) := by
  induction s with
  | nil => rfl
  | cons c tl ih =>
    have hc := h c (by simp)
    rw [splitOnExp, if_neg (not_or.mpr hc)]
    rw [ih (fun x hx => h x (by simp [hx]))]

theorem splitOnDot_no_dot (s : List Char) (h : '.' ∉ s) : splitOnDot s = (s, none) := by
  induction s with
  | nil => rfl
  | cons c tl ih =>
    have hc : ¬ c = '.' := fun hh => h (by simp [hh])
    rw [splitOnDot, if_neg hc, ih (fun hh => h (by simp [hh]))]

theorem splitOnDot_append : ∀ (lead : List Char), '.' ∉ lead →
    ∀ trail, splitOnDot (lead ++ '.' :: trail) = (lead, some trail)
  | [], _, trail => by
    rw [List.nil_append, splitOnDot, if_pos rfl]
  | x :: xs, hl, trail => by
    have hx : ¬ x = '.' := fun hh => hl (by simp [hh])
    rw [List.cons_append, splitOnDot, if_neg hx,
      splitOnDot_append xs (fun hh => hl (by simp [hh])) trail]

theorem parseNatDigits_some (s : List Char) (hne : s ≠ [])
    (hd : ∀ c ∈ s, isDigitCh c = true) : parseNatDigits s = some (digitsToNat s) := by
  unfold parseNatDigits
  rw [if_pos ⟨hne, hd⟩]

theorem parseBigIntDigits_of_digits (ds : List Char) (hne : ds ≠ [])
    (hd : ∀ c ∈ ds, isDigitCh c = true) :
    parseBigIntDigits ds = some ((digitsToNat ds : Int)) := by
  cases ds with
  | nil => exact absurd rfl hne
  | cons c tl =>
    have hc := hd c (by simp)
    have hspec := isDigitCh_ne_special c hc
    rw [parseBigIntDigits, if_neg hspec.2.2.2.2, if_neg hspec.2.2.2.1,
      parseNatDigits_some _ (by simp) hd]
    rfl

theorem parseBigIntDigits_of_signed (sgn ds : List Char)
    (hsgn : sgn = [] ∨ sgn = ['+'] ∨ sgn = ['-']) (hne : ds ≠ [])
    (hd : ∀ c ∈ ds, isDigitCh c = true) :
    parseBigIntDigits (sgn ++ ds)
      = some (if sgn = ['-'] then -(digitsToNat ds : Int) else (digitsToNat ds : Int)) := by
  rcases hsgn with rfl | rfl | rfl
  · rw [List.nil_append, parseBigIntDigits_of_digits ds hne hd]
    simp
  · rw [List.singleton_append, parseBigIntDigits, if_pos rfl,
      parseNatDigits_some ds hne hd]
    simp
  · rw [List.singleton_append, parseBigIntDigits, if_neg (by decide), if_pos rfl,
      parseNatDigits_some ds hne hd]
    simp

theorem wrapI64_eq_self (x : Int) (h1 : i64Min ≤ x) (h2 : x ≤ i64Max) :
    wrapI64 x = x := by
  rw [i64Min] at h1
  rw [i64Max] at h2
  have hlo : 0 ≤ x + 2 ^ 63 := by omega
  have hhi : x + 2 ^ 63 < 2 ^ 64 := by omega
  rw [wrapI64, Int.emod_eq_of_lt hlo hhi]
  ring

theorem eqv_refl (a : BigDecimal) : a.eqv a := rfl

theorem fromStr_no_exp (s : List Char) (h : NoExpCh s) :
    bigDecimalFromStr s = bigDecimalFromStrBase s 0 := by
  rw [bigDecimalFromStr]
  simp only [splitOnExp_no_e s h]

theorem NoExpCh_append (a b : List Char) (ha : NoExpCh a) (hb : NoExpCh b) :
    NoExpCh (a ++ b) := by
  intro c hc
  rcases List.mem_append.mp hc with h | h
  · exact ha c h
  · exact hb c h

theorem NoExpCh_sign (sign : List Char) (h : sign = [] ∨ sign = ['-']) :
    NoExpCh sign := by
  rcases h with rfl | rfl
  · intro c hc
    simp at hc
  · intro c hc
    simp only [List.mem_singleton] at hc
    subst hc
    exact ⟨by decide, by decide⟩

theorem NoExpCh_digits (ds : List Char) (h : ∀ c ∈ ds, isDigitCh c = true) :
    NoExpCh ds := by
  intro c hc
  exact ⟨(isDigitCh_ne_special c (h c hc)).1, (isDigitCh_ne_special c (h c hc)).2.1⟩

theorem NoExpCh_cons_dot (t : List Char) (h : NoExpCh t) : NoExpCh ('.' :: t) := by
  intro c hc
  rcases List.mem_cons.mp hc with rfl | hm
  · exact ⟨by decide, by decide⟩
  · exact h c hm

theorem NoExpCh_cons_zero (t : List Char) (h : NoExpCh t) : NoExpCh ('0' :: t) := by
  intro c hc
  rcases List.mem_cons.mp hc with rfl | hm
  · exact ⟨by decide, by decide⟩
  · exact h c hm

theorem dot_not_mem_sign_digits (sign ip : List Char)
    (hsign : sign = [] ∨ sign = ['-']) (hip : ∀ c ∈ ip, isDigitCh c = true) :
    '.' ∉ sign ++ ip := by
  intro hx
  rcases List.mem_append.mp hx with hx | hx
  · rcases hsign with rfl | rfl
    · simp at hx
    · simp only [List.mem_singleton] at hx
      exact absurd hx (by decide)
  · exact (isDigitCh_ne_special _ (hip _ hx)).2.2.1 rfl

theorem fromStrBase_eval_nodot (sign body : List Char)
    (hsign : sign = [] ∨ sign = ['-']) (hne : body ≠ [])
    (hd : ∀ c ∈ body, isDigitCh c = true) (expVal : Int) :
    bigDecimalFromStrBase (sign ++ body) expVal
      = some ⟨if sign = ['-'] then -(Int.ofNat (digitsToNat body))
          else Int.ofNat (digitsToNat body), wrapI64 (0 - expVal)⟩ := by
  have hbne : sign ++ body ≠ [] := by
    intro h0
    exact hne (List.append_eq_nil.mp h0).2
  have hnodot : '.' ∉ sign ++ body := dot_not_mem_sign_digits sign body hsign hd
  have hsgn3 : sign = [] ∨ sign = ['+'] ∨ sign = ['-'] := by
    rcases hsign with rfl | rfl
    · exact Or.inl rfl
    · exact Or.inr (Or.inr rfl)
  rw [bigDecimalFromStrBase, if_neg hbne]
  simp only [splitOnDot_no_dot _ hnodot]
  rw [parseBigIntDigits_of_signed sign body hsgn3 hne hd]
  rfl

theorem fromStrBase_eval_dot (sign ip fp : List Char)
    (hsign : sign = [] ∨ sign = ['-']) (hip : ∀ c ∈ ip, isDigitCh c = true)
    (hfp : ∀ c ∈ fp, isDigitCh c = true) (hfpne : fp ≠ []) (expVal : Int) :
    bigDecimalFromStrBase (sign ++ (ip ++ '.' :: fp)) expVal
      = some ⟨if sign = ['-'] then -(Int.ofNat (digitsToNat (ip ++ fp)))
          else Int.ofNat (digitsToNat (ip ++ fp)),
          wrapI64 ((fp.length : Int) - expVal)⟩ := by
  have hassoc : sign ++ (ip ++ '.' :: fp) = (sign ++ ip) ++ '.' :: fp := by
    simp [List.append_assoc]
  have hbne : sign ++ (ip ++ '.' :: fp) ≠ [] := by
    rw [hassoc]
    simp
  have hnodot : '.' ∉ sign ++ ip := dot_not_mem_sign_digits sign ip hsign hip
  have hsgn3 : sign = [] ∨ sign = ['+'] ∨ sign = ['-'] := by
    rcases hsign with rfl | rfl
    · exact Or.inl rfl
    · exact Or.inr (Or.inr rfl)
  have hdigits : ∀ c ∈ ip ++ fp, isDigitCh c = true := by
    intro c hc
    rcases List.mem_append.mp hc with h | h
    · exact hip c h
    · exact hfp c h
  have hdne : ip ++ fp ≠ [] := by
    intro h0
    exact hfpne (List.append_eq_nil.mp h0).2
  rw [bigDecimalFromStrBase, if_neg hbne, hassoc]
  simp only [splitOnDot_append (sign ++ ip) hnodot fp]
  have hjoin : (sign ++ ip) ++ fp = sign ++ (ip ++ fp) := by
    simp [List.append_assoc]
  rw [hjoin, parseBigIntDigits_of_signed sign (ip ++ fp) hsgn3 hdne hdigits]
  rfl

theorem NoExpCh_nil : NoExpCh [] := fun c hc => absurd hc (List.not_mem_nil c)

theorem NoExpCh_replicate_zero (k : Nat) : NoExpCh (List.replicate k '0') := by
  intro c hc
  have := List.eq_of_mem_replicate hc
  subst this
  exact ⟨by decide, by decide⟩

theorem display_branch1 (d : BigDecimal)
    (hbr : d.scale ≥ ((natToStr d.intVal.natAbs).length : Int)) :
    d.display = (if d.intVal < 0 then ['-'] else []) ++
      (['0'] ++ '.' ::
        (List.replicate (d.scale.toNat - (natToStr d.intVal.natAbs).length) '0'
          ++ natToStr d.intVal.natAbs)) := by
  simp only [BigDecimal.display]
  rw [if_pos hbr]
  have hne : List.replicate (d.scale.toNat - (natToStr d.intVal.natAbs).length) '0'
      ++ natToStr d.intVal.natAbs ≠ [] := by
    simp [natToStr_ne_nil]
  simp only [if_neg hne]
  by_cases hneg : d.intVal < 0 <;> simp [hneg]

theorem display_branch2 (d : BigDecimal)
    (hbr : ¬ d.scale ≥ ((natToStr d.intVal.natAbs).length : Int))
    (hsc : d.scale < 0) :
    d.display = (if d.intVal < 0 then ['-'] else []) ++
      (natToStr d.intVal.natAbs ++ List.replicate (-d.scale).toNat '0') := by
  simp only [BigDecimal.display]
  rw [if_neg hbr]
  have hloc : ((natToStr d.intVal.natAbs).length : Int) - d.scale
      > ((natToStr d.intVal.natAbs).length : Int) := by omega
  rw [if_pos hloc]
  have harg : ((natToStr d.intVal.natAbs).length : Int) - d.scale
      - ((natToStr d.intVal.natAbs).length : Int) = -d.scale := by ring
  rw [harg]
  simp only [if_pos rfl]
  by_cases hneg : d.intVal < 0 <;> simp [hneg]

theorem display_branch3a (d : BigDecimal)
    (hbr : ¬ d.scale ≥ ((natToStr d.intVal.natAbs).length : Int))
    (hsc : d.scale = 0) :
    d.display = (if d.intVal < 0 then ['-'] else []) ++ natToStr d.intVal.natAbs := by
  simp only [BigDecimal.display]
  rw [if_neg hbr]
  have hloc : ¬ (((natToStr d.intVal.natAbs).length : Int) - d.scale
      > ((natToStr d.intVal.natAbs).length : Int)) := by omega
  rw [if_neg hloc]
  have harg : (((natToStr d.intVal.natAbs).length : Int) - d.scale).toNat
      = (natToStr d.intVal.natAbs).length := by omega
  rw [harg]
  simp only [List.drop_length, List.take_length, if_pos rfl]
  by_cases hneg : d.intVal < 0 <;> simp [hneg]

theorem display_branch3b (d : BigDecimal)
    (hbr : ¬ d.scale ≥ ((natToStr d.intVal.natAbs).length : Int))
    (hsc : 0 < d.scale) :
    d.display = (if d.intVal < 0 then ['-'] else []) ++
      ((natToStr d.intVal.natAbs).take
          ((natToStr d.intVal.natAbs).length - d.scale.toNat) ++
        '.' :: (natToStr d.intVal.natAbs).drop
          ((natToStr d.intVal.natAbs).length - d.scale.toNat)) := by
  simp only [BigDecimal.display]
  rw [if_neg hbr]
  have hloc : ¬ (((natToStr d.intVal.natAbs).length : Int) - d.scale
      > ((natToStr d.intVal.natAbs).length : Int)) := by omega
  rw [if_neg hloc]
  have harg : (((natToStr d.intVal.natAbs).length : Int) - d.scale).toNat
      = (natToStr d.intVal.natAbs).length - d.scale.toNat := by omega
  rw [harg]
  have hdropne : (natToStr d.intVal.natAbs).drop
      ((natToStr d.intVal.natAbs).length - d.scale.toNat) ≠ [] := by
    intro h0
    have hlen := congrArg List.length h0
    simp only [List.length_drop, List.length_nil] at hlen
    omega
  simp only [if_neg hdropne]
  by_cases hneg : d.intVal < 0 <;> simp [hneg]

theorem display_parse_eqv (d : BigDecimal) (h1 : i64Min ≤ d.scale) (h2 : d.scale ≤ i64Max) :
    ∃ d2, bigDecimalFromStr d.display = some d2 ∧ d2.eqv d := by
  have hminneg : i64Min ≤ 0 := by decide
  have hmaxpos : (0 : Int) ≤ i64Max := by decide
  have hAd : ∀ c ∈ natToStr d.intVal.natAbs, isDigitCh c = true := natToStr_all_digits _
  have hAne : natToStr d.intVal.natAbs ≠ [] := natToStr_ne_nil _
  have hAval : digitsToNat (natToStr d.intVal.natAbs) = d.intVal.natAbs :=
    digitsToNat_natToStr _
  have hAlen : 1 ≤ (natToStr d.intVal.natAbs).length := List.length_pos.mpr hAne
  have hsign_or : (if d.intVal < 0 then ['-'] else ([] : List Char)) = []
      ∨ (if d.intVal < 0 then ['-'] else ([] : List Char)) = ['-'] := by
    split
    · exact Or.inr rfl
    · exact Or.inl rfl
  have hsignval : ∀ m : Nat,
      (if (if d.intVal < 0 then ['-'] else ([] : List Char)) = ['-']
        then -(Int.ofNat m) else Int.ofNat m)
      = (if d.intVal < 0 then -(Int.ofNat m) else Int.ofNat m) := by
    intro m
    by_cases hneg : d.intVal < 0 <;> simp [hneg]
  have hval_n :
      (if d.intVal < 0 then -(Int.ofNat d.intVal.natAbs) else Int.ofNat d.intVal.natAbs)
        = d.intVal := by
    by_cases hneg : d.intVal < 0
    · simp only [if_pos hneg, Int.ofNat_eq_coe]
      omega
    · simp only [if_neg hneg, Int.ofNat_eq_coe]
      omega
  have hnoe_sign : NoExpCh (if d.intVal < 0 then ['-'] else ([] : List Char)) :=
    NoExpCh_sign _ hsign_or
  have hnoe_A : NoExpCh (natToStr d.intVal.natAbs) := NoExpCh_digits _ hAd
  by_cases hbr1 : d.scale ≥ ((natToStr d.intVal.natAbs).length : Int)
  · -- scale at or beyond all digits: 0.00…0digits
    have hsle : (natToStr d.intVal.natAbs).length ≤ d.scale.toNat := by omega
    rw [display_branch1 d hbr1]
    have hnoe : NoExpCh ((if d.intVal < 0 then ['-'] else []) ++
        (['0'] ++ '.' ::
          (List.replicate (d.scale.toNat - (natToStr d.intVal.natAbs).length) '0'
            ++ natToStr d.intVal.natAbs))) := by
      refine NoExpCh_append _ _ hnoe_sign ?_
      refine NoExpCh_cons_zero _ (NoExpCh_cons_dot _ ?_)
      exact NoExpCh_append _ _ (NoExpCh_replicate_zero _) hnoe_A
    rw [fromStr_no_exp _ hnoe]
    have hfpd : ∀ c ∈ List.replicate (d.scale.toNat - (natToStr d.intVal.natAbs).length) '0'
        ++ natToStr d.intVal.natAbs, isDigitCh c = true := by
      intro c hc
      rcases List.mem_append.mp hc with h | h
      · have := List.eq_of_mem_replicate h
        subst this
        decide
      · exact hAd c h
    have hfpne : List.replicate (d.scale.toNat - (natToStr d.intVal.natAbs).length) '0'
        ++ natToStr d.intVal.natAbs ≠ [] := by
      simp [hAne]
    have hfplen : ((List.replicate (d.scale.toNat - (natToStr d.intVal.natAbs).length) '0'
        ++ natToStr d.intVal.natAbs).length : Int) = d.scale := by
      simp only [List.length_append, List.length_replicate]
      omega
    rw [fromStrBase_eval_dot _ ['0'] _ hsign_or (by decide) hfpd hfpne 0]
    refine ⟨_, rfl, ?_⟩
    have hdtn : digitsToNat (['0'] ++
        (List.replicate (d.scale.toNat - (natToStr d.intVal.natAbs).length) '0'
          ++ natToStr d.intVal.natAbs)) = d.intVal.natAbs := by
      rw [digitsToNat_append, digitsToNat_append, digitsToNat_replicate_zero, hAval]
      have h0 : digitsToNat ['0'] = 0 := by decide
      rw [h0]
      ring
    rw [hdtn, hsignval, hval_n]
    have hsc : wrapI64 (((List.replicate
          (d.scale.toNat - (natToStr d.intVal.natAbs).length) '0'
        ++ natToStr d.intVal.natAbs).length : Int) - 0) = d.scale := by
      have hv : ((List.replicate (d.scale.toNat - (natToStr d.intVal.natAbs).length) '0'
          ++ natToStr d.intVal.natAbs).length : Int) - 0 = d.scale := by
        rw [hfplen]
        ring
      rw [hv]
      exact wrapI64_eq_self d.scale h1 h2
    rw [hsc]
    exact eqv_refl d
  · by_cases hbr2 : d.scale < 0
    · -- negative scale: digits followed by zeros
      rw [display_branch2 d hbr1 hbr2]
      have hnoe : NoExpCh ((if d.intVal < 0 then ['-'] else []) ++
          (natToStr d.intVal.natAbs ++ List.replicate (-d.scale).toNat '0')) :=
        NoExpCh_append _ _ hnoe_sign
          (NoExpCh_append _ _ hnoe_A (NoExpCh_replicate_zero _))
      rw [fromStr_no_exp _ hnoe]
      have hbd : ∀ c ∈ natToStr d.intVal.natAbs ++ List.replicate (-d.scale).toNat '0',
          isDigitCh c = true := by
        intro c hc
        rcases List.mem_append.mp hc with h | h
        · exact hAd c h
        · have := List.eq_of_mem_replicate h
          subst this
          decide
      have hbne : natToStr d.intVal.natAbs ++ List.replicate (-d.scale).toNat '0' ≠ [] := by
        simp [hAne]
      rw [fromStrBase_eval_nodot _ _ hsign_or hbne hbd 0]
      refine ⟨_, rfl, ?_⟩
      have hdtn : digitsToNat (natToStr d.intVal.natAbs ++ List.replicate (-d.scale).toNat '0')
          = d.intVal.natAbs * 10 ^ (-d.scale).toNat := by
        rw [digitsToNat_append, digitsToNat_replicate_zero, hAval,
          List.length_replicate]
        ring
      rw [hdtn, hsignval]
      show BigDecimal.eqv ⟨_, wrapI64 (0 - 0)⟩ d
      unfold BigDecimal.eqv
      have h00 : wrapI64 (0 - 0 : Int) = 0 := by decide
      rw [h00]
      have hm : max (0 : Int) d.scale = 0 := by omega
      simp only [hm]
      have hz0 : ((0 : Int) - 0).toNat = 0 := by omega
      have hzs : ((0 : Int) - d.scale).toNat = (-d.scale).toNat := by omega
      rw [hz0, hzs, pow_zero, mul_one]
      have hpc : ((d.intVal.natAbs * 10 ^ (-d.scale).toNat : Nat) : Int)
          = (d.intVal.natAbs : Int) * 10 ^ (-d.scale).toNat := by
        push_cast
        ring
      by_cases hneg : d.intVal < 0
      · simp only [if_pos hneg, Int.ofNat_eq_coe]
        have habs : (d.intVal.natAbs : Int) = -d.intVal := by omega
        rw [hpc, habs]
        ring
      · simp only [if_neg hneg, Int.ofNat_eq_coe]
        have habs : (d.intVal.natAbs : Int) = d.intVal := by omega
        rw [hpc, habs]
    · -- 0 ≤ scale less than the number of digits
      push_neg at hbr2
      by_cases hsc0 : d.scale = 0
      · rw [display_branch3a d hbr1 hsc0]
        have hnoe : NoExpCh ((if d.intVal < 0 then ['-'] else []) ++ natToStr d.intVal.natAbs) :=
          NoExpCh_append _ _ hnoe_sign hnoe_A
        rw [fromStr_no_exp _ hnoe]
        rw [fromStrBase_eval_nodot _ _ hsign_or hAne hAd 0]
        refine ⟨_, rfl, ?_⟩
        rw [hAval, hsignval, hval_n]
        have hs0 : wrapI64 (0 - 0 : Int) = d.scale := by
          have hz : wrapI64 (0 - 0 : Int) = 0 := by decide
          rw [hz, hsc0]
        rw [hs0]
        exact eqv_refl d
      · have hscpos : 0 < d.scale := by omega
        rw [display_branch3b d hbr1 hscpos]
        have htless : (natToStr d.intVal.natAbs).length - d.scale.toNat
            < (natToStr d.intVal.natAbs).length := by omega
        have htake_d : ∀ c ∈ (natToStr d.intVal.natAbs).take
            ((natToStr d.intVal.natAbs).length - d.scale.toNat), isDigitCh c = true :=
          fun c hc => hAd c (List.mem_of_mem_take hc)
        have hdrop_d : ∀ c ∈ (natToStr d.intVal.natAbs).drop
            ((natToStr d.intVal.natAbs).length - d.scale.toNat), isDigitCh c = true :=
          fun c hc => hAd c (List.mem_of_mem_drop hc)
        have hdropne : (natToStr d.intVal.natAbs).drop
            ((natToStr d.intVal.natAbs).length - d.scale.toNat) ≠ [] := by
          intro h0
          have hlen := congrArg List.length h0
          simp only [List.length_drop, List.length_nil] at hlen
          omega
        have hnoe : NoExpCh ((if d.intVal < 0 then ['-'] else []) ++
            ((natToStr d.intVal.natAbs).take
                ((natToStr d.intVal.natAbs).length - d.scale.toNat) ++
              '.' :: (natToStr d.intVal.natAbs).drop
                ((natToStr d.intVal.natAbs).length - d.scale.toNat))) := by
          refine NoExpCh_append _ _ hnoe_sign ?_
          refine NoExpCh_append _ _ (NoExpCh_digits _ htake_d) ?_
          exact NoExpCh_cons_dot _ (NoExpCh_digits _ hdrop_d)
        rw [fromStr_no_exp _ hnoe]
        have hdlen : (((natToStr d.intVal.natAbs).drop
            ((natToStr d.intVal.natAbs).length - d.scale.toNat)).length : Int) = d.scale := by
          simp only [List.length_drop]
          omega
        rw [fromStrBase_eval_dot _ _ _ hsign_or htake_d hdrop_d hdropne 0]
        refine ⟨_, rfl, ?_⟩
        rw [List.take_append_drop, hAval, hsignval, hval_n]
        have hsc : wrapI64 ((((natToStr d.intVal.natAbs).drop
            ((natToStr d.intVal.natAbs).length - d.scale.toNat)).length : Int) - 0)
            = d.scale := by
          have hv : (((natToStr d.intVal.natAbs).drop
              ((natToStr d.intVal.natAbs).length - d.scale.toNat)).length : Int) - 0
              = d.scale := by
            rw [hdlen]
            ring
          rw [hv]
          exact wrapI64_eq_self d.scale h1 h2
        rw [hsc]
        exact eqv_refl d

theorem sign_if_eq {α : Sort u} (neg : Bool) (a b : α) :
    (if (if neg then ['-'] else ([] : List Char)) = ['-'] then a else b)
      = if neg then a else b := by
  cases neg <;> simp

theorem display_canonical_int (neg : Bool) (ip : List Char)
    (hip : ip = ['0'] ∨ (ip ≠ [] ∧ (∀ c ∈ ip, isDigitCh c = true) ∧ ip.head? ≠ some '0'))
    (hnz : neg = true → digitsToNat ip ≠ 0) :
    BigDecimal.display
        ⟨if neg then -(Int.ofNat (digitsToNat ip)) else Int.ofNat (digitsToNat ip), 0⟩
      = (if neg then ['-'] else []) ++ ip := by
  rcases hip with rfl | ⟨hne, hd, hh⟩
  · have hneg : neg = false := by
      cases neg
      · rfl
      · exact absurd (by decide : digitsToNat ['0'] = 0) (hnz rfl)
    subst hneg
    decide
  · have hvabs : (if neg then -(Int.ofNat (digitsToNat ip))
        else Int.ofNat (digitsToNat ip)).natAbs = digitsToNat ip := by
      cases neg <;> simp
    have hA : natToStr (BigDecimal.intVal
        ⟨if neg then -(Int.ofNat (digitsToNat ip)) else Int.ofNat (digitsToNat ip),
          0⟩).natAbs = ip := by
      show natToStr (if neg then -(Int.ofNat (digitsToNat ip))
        else Int.ofNat (digitsToNat ip)).natAbs = ip
      rw [hvabs]
      exact natToStr_roundtrip ip hne hd hh
    have hlen1 : 1 ≤ ip.length := List.length_pos.mpr hne
    have hbr : ¬ (BigDecimal.scale
        ⟨if neg then -(Int.ofNat (digitsToNat ip)) else Int.ofNat (digitsToNat ip), 0⟩
        ≥ ((natToStr (BigDecimal.intVal
          ⟨if neg then -(Int.ofNat (digitsToNat ip)) else Int.ofNat (digitsToNat ip),
            0⟩).natAbs).length : Int)) := by
      rw [hA]
      show ¬ ((0 : Int) ≥ (ip.length : Int))
      omega
    rw [display_branch3a _ hbr rfl, hA]
    congr 1
    cases hnegb : neg
    · have hge : ¬ (if neg then -(Int.ofNat (digitsToNat ip))
          else Int.ofNat (digitsToNat ip)) < 0 := by
        rw [hnegb]
        simp
      simp [hge]
    · have hdz := hnz hnegb
      have hlt : (if neg then -(Int.ofNat (digitsToNat ip))
          else Int.ofNat (digitsToNat ip)) < 0 := by
        rw [hnegb]
        simp
        omega
      simp [hlt]
      exact hdz

theorem display_canonical_zerohead (neg : Bool) (fds : List Char)
    (hfds : ∀ c ∈ fds, isDigitCh c = true) (hfne : fds ≠ [])
    (hnz : neg = true → digitsToNat fds ≠ 0) :
    BigDecimal.display
        ⟨if neg then -(Int.ofNat (digitsToNat fds)) else Int.ofNat (digitsToNat fds),
          (fds.length : Int)⟩
      = (if neg then ['-'] else []) ++ ('0' :: '.' :: fds) := by
  have hvabs : (if neg then -(Int.ofNat (digitsToNat fds))
      else Int.ofNat (digitsToNat fds)).natAbs = digitsToNat fds := by
    cases neg <;> simp
  have hlt : digitsToNat fds < 10 ^ fds.length := digitsToNat_lt fds hfds
  have hlen1 : 1 ≤ fds.length := List.length_pos.mpr hfne
  have hAle : (natToStr (digitsToNat fds)).length ≤ fds.length :=
    natToStr_length_le _ _ hlen1 hlt
  have hbr : BigDecimal.scale
      ⟨if neg then -(Int.ofNat (digitsToNat fds)) else Int.ofNat (digitsToNat fds),
        (fds.length : Int)⟩
      ≥ ((natToStr (BigDecimal.intVal
        ⟨if neg then -(Int.ofNat (digitsToNat fds)) else Int.ofNat (digitsToNat fds),
          (fds.length : Int)⟩).natAbs).length : Int) := by
    show ((fds.length : Int)) ≥ _
    rw [hvabs]
    exact_mod_cast hAle
  rw [display_branch1 _ hbr]
  rw [hvabs]
  have hsct : ((fds.length : Int)).toNat = fds.length := by omega
  rw [hsct, pad_natToStr fds hfne hfds]
  congr 1
  cases hnegb : neg
  · have hge : ¬ (if neg then -(Int.ofNat (digitsToNat fds))
        else Int.ofNat (digitsToNat fds)) < 0 := by
      rw [hnegb]
      simp
    simp [hge]
  · have hdz := hnz hnegb
    have hlt2 : (if neg then -(Int.ofNat (digitsToNat fds))
        else Int.ofNat (digitsToNat fds)) < 0 := by
      rw [hnegb]
      simp
      omega
    simp [hlt2]
    exact hdz

theorem display_canonical_fraction (neg : Bool) (ip fds : List Char)
    (hipne : ip ≠ []) (hipd : ∀ c ∈ ip, isDigitCh c = true)
    (hiph : ip.head? ≠ some '0')
    (hfds : ∀ c ∈ fds, isDigitCh c = true) (hfne : fds ≠ []) :
    BigDecimal.display
        ⟨if neg then -(Int.ofNat (digitsToNat (ip ++ fds)))
          else Int.ofNat (digitsToNat (ip ++ fds)), (fds.length : Int)⟩
      = (if neg then ['-'] else []) ++ (ip ++ '.' :: fds) := by
  have hd_all : ∀ c ∈ ip ++ fds, isDigitCh c = true := by
    intro c hc
    rcases List.mem_append.mp hc with h | h
    · exact hipd c h
    · exact hfds c h
  have hne_all : ip ++ fds ≠ [] := by
    intro h0
    exact hipne (List.append_eq_nil.mp h0).1
  have hh_all : (ip ++ fds).head? ≠ some '0' := by
    obtain ⟨c0, tl0, rfl⟩ := List.exists_cons_of_ne_nil hipne
    simpa using hiph
  have hA : natToStr (digitsToNat (ip ++ fds)) = ip ++ fds :=
    natToStr_roundtrip _ hne_all hd_all hh_all
  have hvabs : (if neg then -(Int.ofNat (digitsToNat (ip ++ fds)))
      else Int.ofNat (digitsToNat (ip ++ fds))).natAbs = digitsToNat (ip ++ fds) := by
    cases neg <;> simp
  have hiplen : 1 ≤ ip.length := List.length_pos.mpr hipne
  have hfdlen : 1 ≤ fds.length := List.length_pos.mpr hfne
  have hvpos : 0 < digitsToNat (ip ++ fds) := by
    obtain ⟨c0, tl0, rfl⟩ := List.exists_cons_of_ne_nil hipne
    have hc0d : isDigitCh c0 = true := hipd c0 (by simp)
    have hc0 : c0 ≠ '0' := by
      intro h0
      exact hiph (by simp [h0])
    calc 0 < 10 ^ (tl0 ++ fds).length := Nat.pos_pow_of_pos _ (by norm_num)
      _ ≤ digitsToNat (c0 :: (tl0 ++ fds)) := digitsToNat_head_lower c0 _ hc0d hc0
      _ = digitsToNat ((c0 :: tl0) ++ fds) := by simp
  have hbr : ¬ (BigDecimal.scale
      ⟨if neg then -(Int.ofNat (digitsToNat (ip ++ fds)))
        else Int.ofNat (digitsToNat (ip ++ fds)), (fds.length : Int)⟩
      ≥ ((natToStr (BigDecimal.intVal
        ⟨if neg then -(Int.ofNat (digitsToNat (ip ++ fds)))
          else Int.ofNat (digitsToNat (ip ++ fds)),
          (fds.length : Int)⟩).natAbs).length : Int)) := by
    rw [hvabs, hA]
    show ¬ ((fds.length : Int) ≥ ((ip ++ fds).length : Int))
    simp only [List.length_append]
    push_cast
    omega
  have hscpos : 0 < BigDecimal.scale
      ⟨if neg then -(Int.ofNat (digitsToNat (ip ++ fds)))
        else Int.ofNat (digitsToNat (ip ++ fds)), (fds.length : Int)⟩ := by
    show (0 : Int) < (fds.length : Int)
    omega
  rw [display_branch3b _ hbr hscpos, hvabs, hA]
  have hsct : ((fds.length : Int)).toNat = fds.length := by omega
  rw [hsct]
  have htarg : (ip ++ fds).length - fds.length = ip.length := by
    simp only [List.length_append]
    omega
  rw [htarg, List.take_left, List.drop_left]
  congr 1
  cases hnegb : neg
  · have hge : ¬ (if neg then -(Int.ofNat (digitsToNat (ip ++ fds)))
        else Int.ofNat (digitsToNat (ip ++ fds))) < 0 := by
      rw [hnegb]
      simp
    simp [hge]
  · have hlt2 : (if neg then -(Int.ofNat (digitsToNat (ip ++ fds)))
        else Int.ofNat (digitsToNat (ip ++ fds))) < 0 := by
      rw [hnegb]
      simp
      omega
    simp [hlt2]
    omega

theorem parse_display_id (s : List Char) (h : CanonicalDec s) :
    ∃ d, bigDecimalFromStr s = some d ∧ d.display = s := by
  obtain ⟨neg, ip, fds, hs, hip, hfds, hlenb, hnz⟩ := h
  have hipd : ∀ c ∈ ip, isDigitCh c = true := by
    rcases hip with rfl | ⟨_, hd, _⟩
    · intro c hc
      simp only [List.mem_singleton] at hc
      subst hc
      decide
    · exact hd
  have hipne : ip ≠ [] := by
    rcases hip with rfl | ⟨hne, _, _⟩
    · simp
    · exact hne
  have hminneg : i64Min ≤ 0 := by decide
  have hmaxpos : (0 : Int) ≤ i64Max := by decide
  have hsign_or : (if neg then ['-'] else ([] : List Char)) = []
      ∨ (if neg then ['-'] else ([] : List Char)) = ['-'] := by
    cases neg
    · exact Or.inl rfl
    · exact Or.inr rfl
  by_cases hfds0 : fds = []
  · subst hfds0
    rw [if_pos rfl] at hs
    have hs2 : s = (if neg then ['-'] else []) ++ ip := by
      rw [hs]
      simp
    rw [hs2,
      fromStr_no_exp _ (NoExpCh_append _ _ (NoExpCh_sign _ hsign_or) (NoExpCh_digits _ hipd)),
      fromStrBase_eval_nodot _ _ hsign_or hipne hipd 0]
    refine ⟨_, rfl, ?_⟩
    rw [sign_if_eq]
    have hz : wrapI64 (0 - 0 : Int) = 0 := by decide
    rw [hz]
    rw [display_canonical_int neg ip hip (fun hb => by simpa using hnz hb)]
  · rw [if_neg hfds0] at hs
    have hfne : fds ≠ [] := hfds0
    have hs2 : s = (if neg then ['-'] else []) ++ (ip ++ '.' :: fds) := by
      rw [hs]
      simp
    rw [hs2,
      fromStr_no_exp _ (NoExpCh_append _ _ (NoExpCh_sign _ hsign_or)
        (NoExpCh_append _ _ (NoExpCh_digits _ hipd)
          (NoExpCh_cons_dot _ (NoExpCh_digits _ hfds)))),
      fromStrBase_eval_dot _ _ _ hsign_or hipd hfds hfne 0]
    refine ⟨_, rfl, ?_⟩
    rw [sign_if_eq]
    have hz : wrapI64 (((fds.length : Int)) - 0) = (fds.length : Int) := by
      have hv : ((fds.length : Int)) - 0 = (fds.length : Int) := by ring
      rw [hv]
      exact wrapI64_eq_self _ (by omega) hlenb
    rw [hz]
    rcases hip with rfl | ⟨hne, hd, hh⟩
    · have hdtn : digitsToNat (['0'] ++ fds) = digitsToNat fds := by
        rw [digitsToNat_append]
        have h0 : digitsToNat ['0'] = 0 := by decide
        rw [h0]
        ring
      rw [hdtn]
      rw [display_canonical_zerohead neg fds hfds hfne
        (fun hb => by
          have hx := hnz hb
          rw [hdtn] at hx
          exact hx)]
      simp
    · rw [display_canonical_fraction neg ip fds hne hd hh hfds hfne]

theorem bdPow_ten (e : Nat) : bdPow ⟨10, 0⟩ e = ⟨10 ^ e, 0⟩ := by
  induction e with
  | zero => rfl
  | succ n ih => simp [bdPow, ih, BigDecimal.mul, pow_succ]; ring

theorem loadGo_ok (pool : PgPool) (hconn : pool.connAvailable = true) :
    ∀ (keys : List ID) (acc : List (ID × Details)) (calls : Nat),
      (∀ k ∈ keys, ∃ kid e, parseI32 k = some kid ∧ pool.details kid = some e) →
      ∃ entries,
        DetailsBatchLoader.loadGo pool keys acc calls = .ok (entries, calls + keys.length)
  | [], acc, calls, _ => ⟨acc, by simp [DetailsBatchLoader.loadGo]⟩
  | k :: ks, acc, calls, h => by
    obtain ⟨kid, e, hk, he⟩ := h k (by simp)
    obtain ⟨entries, ih⟩ :=
      loadGo_ok pool hconn ks (acc ++ [(k, Details.fromEntity e)]) (calls + 1)
        (fun k' hk' => h k' (by simp [hk']))
    refine ⟨entries, ?_⟩
    have hlen : calls + (k :: ks).length = calls + 1 + ks.length := by
      simp only [List.length_cons]; omega
    rw [hlen]
    simp only [DetailsBatchLoader.loadGo, hconn, if_true, hk, he]
    exact ih

theorem loadGo_isOk_iff (pool : PgPool) (hconn : pool.connAvailable = true) :
    ∀ (keys : List ID) (acc : List (ID × Details)) (calls : Nat),
      (∀ k ∈ keys, (parseI32 k).isSome = true) →
      ((∃ r, DetailsBatchLoader.loadGo pool keys acc calls = .ok r) ↔
        ∀ k ∈ keys, ∀ kid, parseI32 k = some kid → (pool.details kid).isSome = true)
  | [], acc, calls, _ => by
    simp [DetailsBatchLoader.loadGo]
  | k :: ks, acc, calls, hparse => by
    have hk : (parseI32 k).isSome = true := hparse k (by simp)
    obtain ⟨kid0, hkid0⟩ := Option.isSome_iff_exists.mp hk
    cases hdet : pool.details kid0 with
    | none =>
      constructor
      · rintro ⟨r, hr⟩
        simp only [DetailsBatchLoader.loadGo, hconn, if_true, hkid0, hdet] at hr
        exact Except.noConfusion hr
      · intro h
        have := h k (by simp) kid0 hkid0
        rw [hdet] at this
        simp at this
    | some e =>
      have ih :=
        loadGo_isOk_iff pool hconn ks (acc ++ [(k, Details.fromEntity e)]) (calls + 1)
          (fun k' hk' => hparse k' (by simp [hk']))
      constructor
      · rintro ⟨r, hr⟩ k' hk' kid' hkid'
        simp only [DetailsBatchLoader.loadGo, hconn, if_true, hkid0, hdet] at hr
        rcases List.mem_cons.mp hk' with rfl | hmem
        · rw [hkid0] at hkid'
          cases hkid'
          simp [hdet]
        · exact ih.mp ⟨r, hr⟩ k' hmem kid' hkid'
      · intro h
        obtain ⟨r, hr⟩ := ih.mpr (fun k' hk' kid' hkid' => h k' (by simp [hk']) kid' hkid')
        refine ⟨r, ?_⟩
        simp only [DetailsBatchLoader.loadGo, hconn, if_true, hkid0, hdet]
        exact hr

/-! ## Claim theorems -/

/-- C7: `CustomBigInt::parse` (decodeInteger) fails on every input with
the `unimplemented!()` caller-contract panic (UnsupportedOperation) and
never returns a value. -/
theorem bigint_parse_always_fails (v : Value) :
    CustomBigInt.parse v = .error .unimplemented ∧
    ∀ r, CustomBigInt.parse v ≠ .ok r :=
  ⟨rfl, fun _ h => Except.noConfusion h⟩

/-- Witness for C7 at the concrete input `Value::Null`. -/
theorem bigint_parse_always_fails_witness :
    CustomBigInt.parse .null = .error .unimplemented ∧
    CustomBigInt.parse .null ≠ .ok ⟨0⟩ :=
  ⟨(bigint_parse_always_fails .null).1, (bigint_parse_always_fails .null).2 ⟨0⟩⟩

/-- C10: `CustomBigDecimal::parse` (decodeDecimal) fails with the
expected-type input error on every GraphQL value that is not a string. -/
theorem bigdecimal_parse_rejects_nonstring (v : Value) (h : ∀ s, v ≠ .str s) :
    CustomBigDecimal.parse v = .error (.expectedType v) := by
  cases v <;> first
    | rfl
    | exact absurd rfl (h _)

/-- Witness for C10 at the concrete input `Value::Null`. -/
theorem bigdecimal_parse_rejects_nonstring_witness :
    CustomBigDecimal.parse .null = .error (.expectedType .null) :=
  bigdecimal_parse_rejects_nonstring .null (fun _ h => Value.noConfusion h)

/-- C9: converting a persisted detail row yields the inhabited variant
carrying the population of the row exactly when the population field is
present, and the uninhabited variant exactly when it is absent. -/
theorem details_variant_iff_population (e : DetailsEntity) :
    (Details.fromEntity e).isInhabited = e.population.isSome ∧
    (Details.fromEntity e).populationOf = e.population.map (fun p => ⟨p⟩) := by
  rcases e with ⟨pid, mr, ms, pop⟩
  cases pop <;>
    simp [Details.fromEntity, Details.isInhabited, Details.populationOf]

/-- C3: `get_new_planet_mass` multiplies the decimal mantissa by exactly
`10 ^ exponent` (unscaled value multiplied, scale unchanged: no precision
loss), and the concrete input mantissa `6.42` (the decimal
`BigDecimal::from(6.42f32)` produces), exponent `23`, yields a value
equal to `642 * 10 ^ 21`. -/
theorem create_planet_mass_exact :
    (∀ (m : BigDecimal) (e : Nat),
        (get_new_planet_mass m e).intVal = m.intVal * 10 ^ e ∧
        (get_new_planet_mass m e).scale = m.scale) ∧
    (get_new_planet_mass ⟨642, 2⟩ 23).eqv ⟨642 * 10 ^ 21, 0⟩ ∧
    bigDecimalFromStr "6.42".data = some ⟨642, 2⟩ := by
  refine ⟨fun m e => ?_, by decide, by decide⟩
  rw [get_new_planet_mass, bdPow_ten]
  simp [BigDecimal.mul]

/-- C6: a malformed identifier makes `find_planet_by_id_internal` fail
(the id-parse panic), never a silent null; a well-formed identifier with
no record is the normal null outcome. -/
theorem find_planet_null_vs_invalid_id (pool : PgPool) (id : ID)
    (hconn : pool.connAvailable = true) :
    (parseI32 id = none → find_planet_by_id_internal pool id = .error .idParse) ∧
    (∀ pid, parseI32 id = some pid → pool.planets pid = none →
      find_planet_by_id_internal pool id = .ok none) ∧
    (parseI32 id = none → ∀ p, find_planet_by_id_internal pool id ≠ .ok p) := by
  refine ⟨fun h => ?_, fun pid h1 h2 => ?_, fun h p hp => ?_⟩
  · simp [find_planet_by_id_internal, h]
  · simp [find_planet_by_id_internal, h1, hconn, h2]
  · simp [find_planet_by_id_internal, h] at hp

/-- Witness for C6: a malformed id fails, a fresh well-formed id is null. -/
theorem find_planet_null_vs_invalid_id_witness :
    find_planet_by_id_internal examplePool "abc".data = .error .idParse ∧
    find_planet_by_id_internal examplePool "9".data = .ok none := by
  constructor
  · exact (find_planet_null_vs_invalid_id examplePool "abc".data rfl).1 (by decide)
  · exact (find_planet_null_vs_invalid_id examplePool "9".data rfl).2.1 9
      (by decide) (by decide)

/-- C1 counterexample: a deduplicated batch of two identifiers makes two
gateway calls inside `BatchFn::load`, not exactly one. -/
theorem loader_two_keys_two_gateway_calls :
    DetailsBatchLoader.load ⟨examplePool⟩ ["1".data, "2".data]
      = .ok ([("1".data, Details.fromEntity entMercury),
              ("2".data, Details.fromEntity entEarth)], 2) ∧
    (2 : Nat) ≠ 1 :=
  ⟨rfl, by decide⟩

/-- C1 amended: for a batch in which every key is well-formed and has a
detail row, `BatchFn::load` makes exactly one gateway call per key of the
batch slice — `keys.length` calls in total, not one. -/
theorem loader_one_gateway_call_per_key (pool : PgPool) (keys : List ID)
    (hconn : pool.connAvailable = true)
    (hkeys : ∀ k ∈ keys, ∃ kid e, parseI32 k = some kid ∧ pool.details kid = some e) :
    ∃ entries, DetailsBatchLoader.load ⟨pool⟩ keys = .ok (entries, keys.length) := by
  have h := loadGo_ok pool hconn keys [] 0 hkeys
  simpa [DetailsBatchLoader.load] using h

/-- Witness for the amended C1 at a concrete two-key batch. -/
theorem loader_one_gateway_call_per_key_witness :
    ∃ entries,
      DetailsBatchLoader.load ⟨examplePool⟩ ["1".data, "2".data] = .ok (entries, 2) := by
  have h := loader_one_gateway_call_per_key examplePool ["1".data, "2".data] rfl ?_
  · simpa using h
  · intro k hk
    simp only [List.mem_cons, List.not_mem_nil, or_false] at hk
    rcases hk with rfl | rfl
    · exact ⟨1, entMercury, by decide, by decide⟩
    · exact ⟨2, entEarth, by decide, by decide⟩

/-- C2 counterexample: in a batch `[1, 7]` where id 7 has no detail row,
the whole `load` fails with the fetch panic — the sibling id 1 does not
receive its value, and no per-identifier DetailsNotFound error exists. -/
theorem loader_missing_row_aborts_whole_batch :
    DetailsBatchLoader.load ⟨examplePool⟩ ["1".data, "7".data] = .error .detailsFetch :=
  rfl

/-- C2 amended: with well-formed keys, the batch load succeeds iff every
key has a detail row; a single missing row aborts the entire batch
(panic), so no sibling future completes. -/
theorem loader_batch_all_or_nothing (pool : PgPool) (keys : List ID)
    (hconn : pool.connAvailable = true)
    (hparse : ∀ k ∈ keys, (parseI32 k).isSome = true) :
    (∃ r, DetailsBatchLoader.load ⟨pool⟩ keys = .ok r) ↔
      ∀ k ∈ keys, ∀ kid, parseI32 k = some kid → (pool.details kid).isSome = true := by
  simpa [DetailsBatchLoader.load] using
    loadGo_isOk_iff pool hconn keys [] 0 hparse

/-- Witness for the amended C2 at a concrete batch with all rows present. -/
theorem loader_batch_all_or_nothing_witness :
    ∃ r, DetailsBatchLoader.load ⟨examplePool⟩ ["1".data, "2".data] = .ok r := by
  refine (loader_batch_all_or_nothing examplePool ["1".data, "2".data] rfl (by decide)).mpr ?_
  intro k hk kid hkid
  simp only [List.mem_cons, List.not_mem_nil, or_false] at hk
  rcases hk with rfl | rfl
  · have h1 : parseI32 "1".data = some 1 := by decide
    rw [h1] at hkid
    cases hkid
    decide
  · have h2 : parseI32 "2".data = some 2 := by decide
    rw [h2] at hkid
    cases hkid
    decide

/-- The `LowerExp` rendering always has scientific-notation shape. -/
theorem i128LowerExp_shape (n : Int) : IsLowerSci (i128LowerExp n) := by
  cases hds : natToStr (stripTrailingZeros n.natAbs).1 with
  | nil => exact absurd hds (natToStr_ne_nil _)
  | cons d0 rest =>
    have hd0 : isDigitCh d0 = true :=
      natToStr_all_digits (stripTrailingZeros n.natAbs).1 d0 (by rw [hds]; simp)
    have hrest : ∀ c ∈ rest, isDigitCh c = true := by
      intro c hc
      exact natToStr_all_digits _ c (by rw [hds]; simp [hc])
    refine ⟨if n < 0 then ['-'] else [], d0,
      if rest = [] then [] else '.' :: rest,
      natToStr ((stripTrailingZeros n.natAbs).2 + ((d0 :: rest).length - 1)),
      ?_, ?_, hd0, natToStr_ne_nil _, natToStr_all_digits _, ?_⟩
    · rw [i128LowerExp]
      simp only [hds]
      simp [List.cons_append, List.append_assoc]
    · split
      · exact Or.inr rfl
      · exact Or.inl rfl
    · by_cases hr : rest = []
      · exact Or.inl (by rw [if_pos hr])
      · exact Or.inr ⟨rest, by rw [if_neg hr], hr, hrest⟩

/-- C4 counterexample: a `BigInt` just beyond the `i128` range makes
`CustomBigInt::to_value` panic instead of rendering. -/
theorem bigint_to_value_panics_beyond_i128 :
    CustomBigInt.to_value ⟨10 ^ 39⟩ = .error .bigIntToI128 := by
  have hgt : i128Max < 10 ^ 39 := by norm_num [i128Max]
  rw [CustomBigInt.to_value, if_neg (fun h => absurd h.2 (not_le.mpr hgt))]

/-- C4 amended: for every `BigInt` within the `i128` range,
`CustomBigInt::to_value` succeeds and renders a lower-case
scientific-notation string (optional minus, leading digit, optional
dot-separated fraction, `e`, non-negative decimal exponent). Larger
values panic in `to_i128().expect(..)`. -/
theorem bigint_to_value_sci_within_i128 (n : Int)
    (hlo : i128Min ≤ n) (hhi : n ≤ i128Max) :
    ∃ s, CustomBigInt.to_value ⟨n⟩ = .ok (.str s) ∧ IsLowerSci s := by
  rw [CustomBigInt.to_value, if_pos ⟨hlo, hhi⟩]
  exact ⟨i128LowerExp n, rfl, i128LowerExp_shape n⟩

/-- Witness for the amended C4 at the mass value `642 * 10 ^ 21`. -/
theorem bigint_to_value_sci_within_i128_witness :
    ∃ s, CustomBigInt.to_value ⟨642 * 10 ^ 21⟩ = .ok (.str s) ∧ IsLowerSci s :=
  bigint_to_value_sci_within_i128 (642 * 10 ^ 21)
    (by norm_num [i128Min]) (by norm_num [i128Max])

/-- C8: decoding a canonical decimal wire string then encoding returns
the identical string, and encoding a `BigDecimal` then decoding returns
an equal value (`PartialEq` of bigdecimal, i.e. value equality). -/
theorem bigdecimal_roundtrip :
    (∀ s : List Char, CanonicalDec s → ∃ c : CustomBigDecimal,
      CustomBigDecimal.parse (.str s) = .ok c ∧ CustomBigDecimal.to_value c = .str s)
    ∧ (∀ d : BigDecimal, i64Min ≤ d.scale → d.scale ≤ i64Max →
      ∃ d2 : BigDecimal,
        CustomBigDecimal.parse (CustomBigDecimal.to_value ⟨d⟩) = .ok ⟨d2⟩ ∧ d2.eqv d) := by
  constructor
  · intro s hs
    obtain ⟨d, hparse, hdisp⟩ := parse_display_id s hs
    refine ⟨⟨d⟩, ?_, ?_⟩
    · simp [CustomBigDecimal.parse, hparse]
    · simp [CustomBigDecimal.to_value, hdisp]
  · intro d hd1 hd2
    obtain ⟨d2, hparse, heqv⟩ := display_parse_eqv d hd1 hd2
    refine ⟨d2, ?_, heqv⟩
    simp [CustomBigDecimal.parse, CustomBigDecimal.to_value, hparse]

/-- Witness for C8 at the canonical string `6371.0` and the value
`63710 * 10 ^ (-1)`. -/
theorem bigdecimal_roundtrip_witness :
    (∃ c : CustomBigDecimal,
      CustomBigDecimal.parse (.str ['6', '3', '7', '1', '.', '0']) = .ok c ∧
      CustomBigDecimal.to_value c = .str ['6', '3', '7', '1', '.', '0'])
    ∧ ∃ d2 : BigDecimal,
      CustomBigDecimal.parse (CustomBigDecimal.to_value ⟨⟨63710, 1⟩⟩) = .ok ⟨d2⟩ ∧
        d2.eqv ⟨63710, 1⟩ := by
  constructor
  · exact bigdecimal_roundtrip.1 ['6', '3', '7', '1', '.', '0']
      ⟨false, ['6', '3', '7', '1'], ['0'], by decide, by decide, by decide,
        by decide, by decide⟩
  · exact bigdecimal_roundtrip.2 ⟨63710, 1⟩ (by decide) (by decide)

end Planets
